import Mathlib

/-!
Verification of the hand-skeleton normalizer and the hand animator.

The development shallowly embeds two parts of the repository:

1. The skeleton normalizer (reparentBones together with the isFlat guard,
   from the diagnostic scripts): bones carry rational translation, rotation
   quaternion and scale, and the scene-graph world transform is the usual
   TRS composition along parent links.  Everything here is computable over
   the rationals.

2. The hand animator (HandAnimator.js): per-joint local rotation
   composition, wrist orientation, exponential smoothing, and the smoothing
   setter.  Angles involve pi and trigonometric functions, so this part is
   embedded over the reals.

Quaternion conventions follow three.js: a quaternion stores x, y, z, w;
invert on unit quaternions is conjugation; Vector3.applyQuaternion uses the
unit-quaternion sandwich formula.
-/

/-- A 3-vector over a scalar type, as three.js Vector3. -/
structure V3 (R : Type) where
  x : R
  y : R
  z : R
deriving DecidableEq, Repr

/-- A quaternion over a scalar type, stored as in three.js (x, y, z, w). -/
structure Quat (R : Type) where
  x : R
  y : R
  z : R
  w : R
deriving DecidableEq, Repr

section QuatAlgebra

variable {R : Type} [Field R]

/-- Componentwise vector addition. -/
def vadd (a b : V3 R) : V3 R := ⟨a.x + b.x, a.y + b.y, a.z + b.z⟩

/-- Componentwise vector subtraction (three.js Vector3.sub). -/
def vsub (a b : V3 R) : V3 R := ⟨a.x - b.x, a.y - b.y, a.z - b.z⟩

/-- Componentwise vector multiplication (three.js Vector3.multiply). -/
def vmul (a b : V3 R) : V3 R := ⟨a.x * b.x, a.y * b.y, a.z * b.z⟩

/-- Componentwise vector division (three.js Vector3.divide). -/
def vdiv (a b : V3 R) : V3 R := ⟨a.x / b.x, a.y / b.y, a.z / b.z⟩

/-- Scalar multiple of a vector. -/
def vscale (c : R) (a : V3 R) : V3 R := ⟨c * a.x, c * a.y, c * a.z⟩

/-- The all-ones vector, the identity scale of a scene node. -/
def vone : V3 R := ⟨1, 1, 1⟩

/-- The zero vector. -/
def vzero : V3 R := ⟨0, 0, 0⟩

/-- Hamilton product, exactly the component formulas of
three.js Quaternion.multiplyQuaternions. -/
def qmul (a b : Quat R) : Quat R :=
  ⟨a.x * b.w + a.w * b.x + a.y * b.z - a.z * b.y,
   a.y * b.w + a.w * b.y + a.z * b.x - a.x * b.z,
   a.z * b.w + a.w * b.z + a.x * b.y - a.y * b.x,
   a.w * b.w - a.x * b.x - a.y * b.y - a.z * b.z⟩

/-- Quaternion conjugate; three.js Quaternion.invert assumes unit length and
computes exactly this. -/
def qconj (a : Quat R) : Quat R := ⟨-a.x, -a.y, -a.z, a.w⟩

/-- Squared norm of a quaternion. -/
def qnormSq (a : Quat R) : R := a.x * a.x + a.y * a.y + a.z * a.z + a.w * a.w

/-- The identity quaternion. -/
def qone : Quat R := ⟨0, 0, 0, 1⟩

/-- A purely imaginary quaternion holding a vector. -/
def qpure (v : V3 R) : Quat R := ⟨v.x, v.y, v.z, 0⟩

/-- The vector part of a quaternion. -/
def qvec (a : Quat R) : V3 R := ⟨a.x, a.y, a.z⟩

/-- Rotation of a vector by a quaternion, exactly the formula of
three.js Vector3.applyQuaternion (which assumes a unit quaternion). -/
def qrot (q : Quat R) (v : V3 R) : V3 R :=
  let tx := 2 * (q.y * v.z - q.z * v.y)
  let ty := 2 * (q.z * v.x - q.x * v.z)
  let tz := 2 * (q.x * v.y - q.y * v.x)
  ⟨v.x + q.w * tx + q.y * tz - q.z * ty,
   v.y + q.w * ty + q.z * tx - q.x * tz,
   v.z + q.w * tz + q.x * ty - q.y * tx⟩

theorem qmul_assoc (a b c : Quat R) : qmul (qmul a b) c = qmul a (qmul b c) := by
  simp only [qmul, Quat.mk.injEq]
  refine ⟨?_, ?_, ?_, ?_⟩ <;> ring

theorem qmul_one (a : Quat R) : qmul a qone = a := by
  simp only [qmul, qone]
  cases a with
  | mk x y z w => simp

theorem one_qmul (a : Quat R) : qmul qone a = a := by
  simp only [qmul, qone]
  cases a with
  | mk x y z w => simp

theorem qmul_qconj_self (a : Quat R) : qmul a (qconj a) = ⟨0, 0, 0, qnormSq a⟩ := by
  simp only [qmul, qconj, qnormSq, Quat.mk.injEq]
  refine ⟨?_, ?_, ?_, ?_⟩ <;> ring

theorem qconj_qmul_self (a : Quat R) : qmul (qconj a) a = ⟨0, 0, 0, qnormSq a⟩ := by
  simp only [qmul, qconj, qnormSq, Quat.mk.injEq]
  refine ⟨?_, ?_, ?_, ?_⟩ <;> ring

/-- The applyQuaternion formula agrees with the sandwich product up to a
defect proportional to the squared norm minus one. -/
theorem qrot_eq_sandwich (q : Quat R) (v : V3 R) :
    qrot q v = vadd (qvec (qmul (qmul q (qpure v)) (qconj q)))
      (vscale (1 - qnormSq q) v) := by
  simp only [qrot, qmul, qconj, qpure, qvec, vadd, vscale, qnormSq, V3.mk.injEq]
  refine ⟨?_, ?_, ?_⟩ <;> ring

/-- The sandwich product of a pure quaternion is pure. -/
theorem sandwich_pure (q : Quat R) (v : V3 R) :
    (qmul (qmul q (qpure v)) (qconj q)).w = 0 := by
  simp only [qmul, qconj, qpure]
  ring

theorem qpure_qvec (a : Quat R) (h : a.w = 0) : qpure (qvec a) = a := by
  cases a with
  | mk x y z w =>
    simp only [qpure, qvec]
    simp_all

/-- Rotating by a unit quaternion after rotating by its conjugate is the
identity. -/
theorem qrot_qrot_qconj (q : Quat R) (hq : qnormSq q = 1) (v : V3 R) :
    qrot q (qrot (qconj q) v) = v := by
  have hqc : qnormSq (qconj q) = 1 := by
    simp only [qnormSq, qconj] at hq ⊢
    linear_combination hq
  have h1 : qrot (qconj q) v = qvec (qmul (qmul (qconj q) (qpure v)) (qconj (qconj q))) := by
    rw [qrot_eq_sandwich, hqc]
    cases v with
    | mk a b c => simp [vadd, vscale]
  have hcc : qconj (qconj q) = q := by
    cases q with
    | mk x y z w => simp [qconj]
  rw [h1, hcc]
  have hpure : qpure (qvec (qmul (qmul (qconj q) (qpure v)) q))
      = qmul (qmul (qconj q) (qpure v)) q := by
    apply qpure_qvec
    have := sandwich_pure (qconj q) v
    rw [hcc] at this
    exact this
  rw [qrot_eq_sandwich, hq, hpure]
  have hqq : qmul q (qconj q) = qone := by
    rw [qmul_qconj_self, hq]
    rfl
  have hqq2 : qmul (qconj q) q = qone := by
    rw [qconj_qmul_self, hq]
    rfl
  have key : qmul (qmul q (qmul (qmul (qconj q) (qpure v)) q)) (qconj q) = qpure v := by
    rw [qmul_assoc q, qmul_assoc (qmul (qconj q) (qpure v)) q (qconj q), hqq, qmul_one,
      ← qmul_assoc, hqq, one_qmul]
  rw [key]
  cases v with
  | mk a b c => simp [qpure, qvec, vadd, vscale]

/-- Composition of unit rotations cancels a conjugated factor. -/
theorem qmul_qmul_qconj (p q : Quat R) (hp : qnormSq p = 1) :
    qmul p (qmul (qconj p) q) = q := by
  rw [← qmul_assoc, qmul_qconj_self, hp]
  exact one_qmul q

end QuatAlgebra

/-!
Skeleton model, over the rationals.

A bone mirrors a THREE.Bone as used by reparentBones: a name, a local
position, a local rotation quaternion, a local scale, and a parent link.
The parent link is the name of the parent bone, or none when the parent is
not a bone (in the flat asset every bone hangs off one common non-bone
ancestor, modelled as none).
-/

/-- A skeletal joint (THREE.Bone) with its local transform and parent link. -/
structure Bone where
  name : String
  pos : V3 ℚ
  quat : Quat ℚ
  scale : V3 ℚ
  parent : Option String
deriving DecidableEq, Repr

/-- A decomposed world transform: position, rotation, scale, as produced by
Matrix4.decompose in the snapshot step of reparentBones. -/
structure TRS where
  pos : V3 ℚ
  quat : Quat ℚ
  scale : V3 ℚ
deriving DecidableEq, Repr

/-- The local transform of a bone as a TRS triple. -/
def localTRS (b : Bone) : TRS := ⟨b.pos, b.quat, b.scale⟩

/-- Scene-graph composition of TRS transforms: the world transform of a
child given the world transform of its parent, as in updateWorldMatrix for
nodes whose matrices stay in TRS form. -/
def composeTRS (p c : TRS) : TRS :=
  ⟨vadd p.pos (qrot p.quat (vmul p.scale c.pos)), qmul p.quat c.quat, vmul p.scale c.scale⟩

/-- Lookup of a bone by name, as the byName map of reparentBones. -/
def findBone (bones : List Bone) (n : String) : Option Bone :=
  bones.find? (fun b => b.name == n)

/-- Fuel-bounded world transform of a bone: walk the parent chain,
composing local transforms; a parent that is not a bone of the skeleton
contributes the identity.  The fuel only has to dominate the tree depth. -/
def worldAux : Nat → List Bone → Bone → TRS
  | 0, _, b => localTRS b
  | fuel + 1, bones, b =>
    match b.parent with
    | none => localTRS b
    | some pn =>
      match findBone bones pn with
      | none => localTRS b
      | some pb => composeTRS (worldAux fuel bones pb) (localTRS b)

/-- World transform of a bone of a skeleton.  The slack over the list
length keeps the fuel above the depth of any hand chain even for partial
skeletons. -/
def worldBone (bones : List Bone) (b : Bone) : TRS :=
  worldAux (bones.length + 8) bones b

/-- World transform of the bone of a given name, if present. -/
def worldByName (bones : List Bone) (n : String) : Option TRS :=
  (findBone bones n).map (worldBone bones)

/-- The per-finger joint-name chains of the WebXR hand skeleton, exactly
the FINGER_CHAINS table of the source. -/
def FINGER_CHAINS : List (List String) :=
  [["thumb-metacarpal", "thumb-phalanx-proximal", "thumb-phalanx-distal", "thumb-tip"],
   ["index-finger-metacarpal", "index-finger-phalanx-proximal",
    "index-finger-phalanx-intermediate", "index-finger-phalanx-distal", "index-finger-tip"],
   ["middle-finger-metacarpal", "middle-finger-phalanx-proximal",
    "middle-finger-phalanx-intermediate", "middle-finger-phalanx-distal", "middle-finger-tip"],
   ["ring-finger-metacarpal", "ring-finger-phalanx-proximal",
    "ring-finger-phalanx-intermediate", "ring-finger-phalanx-distal", "ring-finger-tip"],
   ["pinky-finger-metacarpal", "pinky-finger-phalanx-proximal",
    "pinky-finger-phalanx-intermediate", "pinky-finger-phalanx-distal", "pinky-finger-tip"]]

/-- Whether a name is carried by some bone of the skeleton. -/
def presOf (bones : List Bone) : String → Bool :=
  fun n => (findBone bones n).isSome

/-- One chain of the re-linking loop of reparentBones: walk the ordered
names, skipping absent ones; each present joint gets the running parent,
and becomes the running parent for the rest of the chain. -/
def walkChain (pres : String → Bool) : String → List String → (String → Option String) →
    (String → Option String)
  | _, [], pm => pm
  | p, n :: rest, pm =>
    if pres n then walkChain pres n rest (fun m => if m = n then some p else pm m)
    else walkChain pres p rest pm

/-- The parent map after the re-linking loop: start from the original
parent links and walk every finger chain from the wrist. -/
def newParentMap (bones : List Bone) (wristName : String) : String → Option String :=
  FINGER_CHAINS.foldl (fun pm c => walkChain (presOf bones) wristName c pm)
    (fun n => (findBone bones n).bind Bone.parent)

/-- The running parent of the walk over a chain when it reaches a given
position: the closest present earlier chain joint, or the start parent. -/
def prevPresent (pres : String → Bool) : String → List String → Nat → String
  | p, [], _ => p
  | p, _ :: _, 0 => p
  | p, n :: rest, j + 1 => prevPresent pres (if pres n then n else p) rest j

/-- The world snapshot table of reparentBones, taken on the input skeleton
before any parent is altered. -/
def snapOf (bones : List Bone) : String → Option TRS :=
  fun n => (findBone bones n).map (worldBone bones)

/-- The per-bone update of reparentBones: install the new parent link, and
when the (new) parent is a bone with a world snapshot, recompute the local
rotation as inverse parent world rotation times original world rotation and
the local position as the parent-rotation-inverted, parent-scale-divided
world offset.  The local scale is left untouched, as in the source. -/
def recomputeBone (bones : List Bone) (wristName : String) (b : Bone) : Bone :=
  match newParentMap bones wristName b.name with
  | none => { b with parent := none }
  | some pn =>
    match snapOf bones pn, snapOf bones b.name with
    | some pw, some bw =>
      { b with
        parent := some pn
        quat := qmul (qconj pw.quat) bw.quat
        pos := vdiv (qrot (qconj pw.quat) (vsub bw.pos pw.pos)) pw.scale }
    | _, _ => { b with parent := some pn }

/-- reparentBones: abort leaving the skeleton untouched when the wrist is
absent; otherwise snapshot world transforms, re-link the finger chains and
recompute the local transforms. -/
def reparentBones (bones : List Bone) (wristName : String) : List Bone :=
  match findBone bones wristName with
  | none => bones
  | some _ => bones.map (recomputeBone bones wristName)

/-- The early-return path of reparentBones, the degraded-mode condition the
diagnostic surfaces with a warning. -/
def reparentAborted (bones : List Bone) (wristName : String) : Bool :=
  (findBone bones wristName).isNone

/-- The flat-structure detection of the caller: every bone shares the
parent of the first bone. -/
def isFlat (bones : List Bone) : Bool :=
  match bones with
  | [] => true
  | b0 :: _ => bones.all (fun b => b.parent == b0.parent)

/-- The caller-level normalization: re-parent only when the skeleton is
detected as flat. -/
def normalizeSkeleton (bones : List Bone) : List Bone :=
  if isFlat bones then reparentBones bones "wrist" else bones

section VecFieldLemmas

variable {R : Type} [Field R]

theorem vdiv_vone (v : V3 R) : vdiv v vone = v := by
  cases v with
  | mk a b c => simp [vdiv, vone]

theorem vone_vmul (v : V3 R) : vmul vone v = v := by
  cases v with
  | mk a b c => simp [vmul, vone]

theorem vadd_vsub_cancel (p b : V3 R) : vadd p (vsub b p) = b := by
  cases p with
  | mk a1 a2 a3 =>
    cases b with
    | mk b1 b2 b3 =>
      simp only [vadd, vsub, V3.mk.injEq]
      refine ⟨?_, ?_, ?_⟩ <;> ring

end VecFieldLemmas

/-- Composing a unit-rotation, identity-scale parent world transform with
the recomputed local transform reproduces the original world transform. -/
theorem composeTRS_recompute (pw : TRS) (hq : qnormSq pw.quat = 1)
    (hs : pw.scale = vone) (bw : TRS) :
    composeTRS pw
      ⟨vdiv (qrot (qconj pw.quat) (vsub bw.pos pw.pos)) pw.scale,
       qmul (qconj pw.quat) bw.quat, bw.scale⟩ = bw := by
  cases bw with
  | mk bp bq bs =>
    simp only [composeTRS, hs, vdiv_vone, vone_vmul]
    rw [qrot_qrot_qconj pw.quat hq, vadd_vsub_cancel, qmul_qmul_qconj pw.quat bq hq]

theorem worldAux_parent_none {fuel : Nat} {bones : List Bone} {b : Bone}
    (h : b.parent = none) : worldAux fuel bones b = localTRS b := by
  cases fuel with
  | zero => rfl
  | succ f => simp [worldAux, h]

theorem findBone_eq_some {bones : List Bone} {n : String} {b : Bone}
    (h : findBone bones n = some b) : b ∈ bones ∧ b.name = n := by
  refine ⟨List.mem_of_find?_eq_some h, ?_⟩
  have := List.find?_some h
  simpa using this

theorem findBone_mem_nodup {bones : List Bone} {b : Bone}
    (hb : b ∈ bones) (hnd : (bones.map Bone.name).Nodup) :
    findBone bones b.name = some b := by
  induction bones with
  | nil => cases hb
  | cons a l ih =>
    rcases List.mem_cons.mp hb with h | h
    · subst h
      simp [findBone, List.find?]
    · have hna : a.name ≠ b.name := by
        intro hcontra
        have : b.name ∈ l.map Bone.name := List.mem_map_of_mem Bone.name h
        rw [List.map_cons, List.nodup_cons] at hnd
        exact hnd.1 (hcontra ▸ this)
      have hrec := ih h (by rw [List.map_cons, List.nodup_cons] at hnd; exact hnd.2)
      simp only [findBone, List.find?] at hrec ⊢
      rw [show (a.name == b.name) = false from beq_eq_false_iff_ne.mpr hna]
      exact hrec

theorem findBone_map_of_name_eq (f : Bone → Bone) (hf : ∀ b, (f b).name = b.name)
    (l : List Bone) (n : String) :
    findBone (l.map f) n = (findBone l n).map f := by
  induction l with
  | nil => rfl
  | cons a l ih =>
    simp only [findBone, List.map_cons, List.find?, hf a]
    cases h : (a.name == n) with
    | true => rfl
    | false => exact ih

theorem walkChain_not_mem (pres : String → Bool) (c : List String) :
    ∀ (p : String) (pm : String → Option String) (m : String), m ∉ c →
      walkChain pres p c pm m = pm m := by
  induction c with
  | nil => intro p pm m _; rfl
  | cons n rest ih =>
    intro p pm m hm
    have hmn : m ≠ n := fun h => hm (h ▸ List.mem_cons_self n rest)
    have hmr : m ∉ rest := fun h => hm (List.mem_cons_of_mem n h)
    simp only [walkChain]
    by_cases hpn : pres n = true
    · rw [if_pos hpn, ih n _ m hmr]
      simp [hmn]
    · rw [if_neg hpn]
      exact ih p pm m hmr

theorem walkChain_get (pres : String → Bool) (c : List String) :
    ∀ (hnd : c.Nodup) (p : String) (pm : String → Option String) (j : Nat)
      (hj : j < c.length), pres (c.get ⟨j, hj⟩) = true →
      walkChain pres p c pm (c.get ⟨j, hj⟩) = some (prevPresent pres p c j) := by
  induction c with
  | nil => intro _ _ _ j hj; cases hj
  | cons n rest ih =>
    intro hnd p pm j hj hpres
    cases j with
    | zero =>
      have hget : (n :: rest).get ⟨0, hj⟩ = n := rfl
      rw [hget] at hpres ⊢
      simp only [walkChain, prevPresent]
      rw [if_pos hpres]
      have hnr : n ∉ rest := (List.nodup_cons.mp hnd).1
      rw [walkChain_not_mem pres rest n _ n hnr]
      simp
    | succ k =>
      have hk : k < rest.length := Nat.lt_of_succ_lt_succ hj
      have hget : (n :: rest).get ⟨k + 1, hj⟩ = rest.get ⟨k, hk⟩ := rfl
      rw [hget] at hpres ⊢
      simp only [walkChain, prevPresent]
      by_cases hpn : pres n = true
      · rw [if_pos hpn, if_pos hpn]
        exact ih (List.nodup_cons.mp hnd).2 n _ k hk hpres
      · rw [if_neg hpn, if_neg hpn]
        exact ih (List.nodup_cons.mp hnd).2 p pm k hk hpres

theorem foldl_walk_not_mem (pres : String → Bool) (w : String)
    (cs : List (List String)) :
    ∀ (pm : String → Option String) (m : String), (∀ c ∈ cs, m ∉ c) →
      cs.foldl (fun pm c => walkChain pres w c pm) pm m = pm m := by
  induction cs with
  | nil => intro pm m _; rfl
  | cons c cs ih =>
    intro pm m hm
    simp only [List.foldl_cons]
    rw [ih _ m (fun d hd => hm d (List.mem_cons_of_mem c hd))]
    exact walkChain_not_mem pres c w pm m (hm c (List.mem_cons_self c cs))

theorem foldl_walk_split (pres : String → Bool) (w : String)
    (cs1 cs2 : List (List String)) (c : List String)
    (pm : String → Option String) (m : String) (hm : ∀ d ∈ cs2, m ∉ d) :
    (cs1 ++ c :: cs2).foldl (fun pm c => walkChain pres w c pm) pm m =
      walkChain pres w c (cs1.foldl (fun pm c => walkChain pres w c pm) pm) m := by
  rw [List.foldl_append, List.foldl_cons]
  exact foldl_walk_not_mem pres w cs2 _ m hm

theorem chains_nodup : ∀ c ∈ FINGER_CHAINS, c.Nodup := by decide

theorem chains_len_le : ∀ c ∈ FINGER_CHAINS, c.length ≤ 5 := by decide

theorem wrist_not_in_chains : ∀ c ∈ FINGER_CHAINS, "wrist" ∉ c := by decide

theorem chains_pairwise_disjoint :
    FINGER_CHAINS.Pairwise (fun c d => ∀ m ∈ c, m ∉ d) := by decide

/-- A name outside every finger chain keeps its original parent link. -/
theorem npm_not_mem (bones : List Bone) (w m : String)
    (hm : ∀ c ∈ FINGER_CHAINS, m ∉ c) :
    newParentMap bones w m = (findBone bones m).bind Bone.parent := by
  unfold newParentMap
  exact foldl_walk_not_mem (presOf bones) w FINGER_CHAINS _ m hm

/-- A present joint of a finger chain is re-linked to the running parent at
its chain position: the closest present earlier chain joint, else the
wrist. -/
theorem npm_chain_member (bones : List Bone) (w : String) (c : List String)
    (hc : c ∈ FINGER_CHAINS) (j : Nat) (hj : j < c.length)
    (hpj : presOf bones (c.get ⟨j, hj⟩) = true) :
    newParentMap bones w (c.get ⟨j, hj⟩) =
      some (prevPresent (presOf bones) w c j) := by
  obtain ⟨cs1, cs2, hsplit⟩ := List.append_of_mem hc
  have hdisj : ∀ d ∈ cs2, ∀ m ∈ c, m ∉ d := by
    have hpw := chains_pairwise_disjoint
    rw [hsplit, List.pairwise_append] at hpw
    have hcons := hpw.2.1
    rw [List.pairwise_cons] at hcons
    intro d hd m hm
    exact hcons.1 d hd m hm
  have hmem : c.get ⟨j, hj⟩ ∈ c := List.get_mem c j hj
  unfold newParentMap
  rw [hsplit,
    foldl_walk_split (presOf bones) w cs1 cs2 c _ _ (fun d hd => hdisj d hd _ hmem)]
  exact walkChain_get (presOf bones) c (chains_nodup c hc) w _ j hj hpj

theorem recomputeBone_name (bones : List Bone) (w : String) (b : Bone) :
    (recomputeBone bones w b).name = b.name := by
  unfold recomputeBone
  split
  · rfl
  · split
    · rfl
    · rfl

theorem recomputeBone_parent (bones : List Bone) (w : String) (b : Bone) :
    (recomputeBone bones w b).parent = newParentMap bones w b.name := by
  unfold recomputeBone
  split
  next heq =>
    rw [heq]
  next pn heq =>
    rw [heq]
    split
    next => rfl
    next => rfl

theorem recomputeBone_eq_self (bones : List Bone) (w : String) (b : Bone)
    (hnp : newParentMap bones w b.name = none) (hbp : b.parent = none) :
    recomputeBone bones w b = b := by
  unfold recomputeBone
  rw [hnp]
  cases b with
  | mk n p q s pa =>
    simp only at hbp
    simp [hbp]

theorem reparent_eq_map (bones : List Bone) (w : String)
    (hw : (findBone bones w).isSome = true) :
    reparentBones bones w = bones.map (recomputeBone bones w) := by
  unfold reparentBones
  cases h : findBone bones w with
  | none => rw [h] at hw; cases hw
  | some b => rfl

/-- Fuel-indexed name-keyed world transform. -/
def worldNameAux (fuel : Nat) (bones : List Bone) (n : String) : Option TRS :=
  (findBone bones n).map (worldAux fuel bones)

theorem worldByName_eq_aux (bones : List Bone) (n : String) :
    worldByName bones n = worldNameAux (bones.length + 8) bones n := rfl

/-- Reduction of recomputeBone when the new parent and both snapshots are
known. -/
theorem recomputeBone_spec (bones : List Bone) (w : String) (b : Bone)
    (pn : String) (pw bw : TRS)
    (hnp : newParentMap bones w b.name = some pn)
    (hpw : snapOf bones pn = some pw)
    (hbw : snapOf bones b.name = some bw) :
    recomputeBone bones w b =
      { b with
        parent := some pn
        quat := qmul (qconj pw.quat) bw.quat
        pos := vdiv (qrot (qconj pw.quat) (vsub bw.pos pw.pos)) pw.scale } := by
  simp only [recomputeBone, hnp, hpw, hbw]

/-- One re-parenting step preserves the world transform: if the new parent
of a present joint is itself preserved at fuel d, the joint is preserved at
fuel d + 1. -/
theorem step_preserved (bones : List Bone)
    (hflat : ∀ b ∈ bones, b.parent = none)
    (hq : ∀ b ∈ bones, qnormSq b.quat = 1)
    (hs : ∀ b ∈ bones, b.scale = vone)
    (hw : (findBone bones "wrist").isSome = true)
    (n p : String) (hnp : newParentMap bones "wrist" n = some p)
    (bn : Bone) (hbn : findBone bones n = some bn)
    (bp : Bone) (hbp : findBone bones p = some bp)
    (d : Nat)
    (hpw : ∀ fuel, d ≤ fuel →
      worldNameAux fuel (reparentBones bones "wrist") p = some (localTRS bp)) :
    ∀ fuel, d + 1 ≤ fuel →
      worldNameAux fuel (reparentBones bones "wrist") n = some (localTRS bn) := by
  intro fuel hfuel
  have hmap := reparent_eq_map bones "wrist" hw
  have hname : ∀ b, (recomputeBone bones "wrist" b).name = b.name :=
    recomputeBone_name bones "wrist"
  obtain ⟨f, rfl⟩ : ∃ f, fuel = f + 1 := by
    cases fuel with
    | zero => omega
    | succ f => exact ⟨f, rfl⟩
  have hdf : d ≤ f := by omega
  have hbnmem := findBone_eq_some hbn
  have hbpmem := findBone_eq_some hbp
  have hsnapp : snapOf bones p = some (localTRS bp) := by
    unfold snapOf worldBone
    rw [hbp, Option.map_some']
    rw [worldAux_parent_none (hflat bp hbpmem.1)]
  have hsnapn : snapOf bones n = some (localTRS bn) := by
    unfold snapOf worldBone
    rw [hbn, Option.map_some']
    rw [worldAux_parent_none (hflat bn hbnmem.1)]
  have hrbn := recomputeBone_spec bones "wrist" bn p (localTRS bp) (localTRS bn)
    (by rw [hbnmem.2]; exact hnp) hsnapp (by rw [hbnmem.2]; exact hsnapn)
  have hfindn : findBone (reparentBones bones "wrist") n =
      some (recomputeBone bones "wrist" bn) := by
    rw [hmap, findBone_map_of_name_eq _ hname, hbn, Option.map_some']
  have hfindp : findBone (reparentBones bones "wrist") p =
      some (recomputeBone bones "wrist" bp) := by
    rw [hmap, findBone_map_of_name_eq _ hname, hbp, Option.map_some']
  have hworldp : worldAux f (reparentBones bones "wrist")
      (recomputeBone bones "wrist" bp) = localTRS bp := by
    have hx := hpw f hdf
    unfold worldNameAux at hx
    rw [hfindp, Option.map_some'] at hx
    exact Option.some.inj hx
  have hstep : worldAux (f + 1) (reparentBones bones "wrist")
      (recomputeBone bones "wrist" bn) = localTRS bn := by
    rw [hrbn]
    simp only [worldAux, hfindp, hworldp]
    have hloc : localTRS { bn with
        parent := some p
        quat := qmul (qconj (localTRS bp).quat) (localTRS bn).quat
        pos := vdiv (qrot (qconj (localTRS bp).quat)
          (vsub (localTRS bn).pos (localTRS bp).pos)) (localTRS bp).scale } =
        ⟨vdiv (qrot (qconj (localTRS bp).quat)
          (vsub (localTRS bn).pos (localTRS bp).pos)) (localTRS bp).scale,
         qmul (qconj (localTRS bp).quat) (localTRS bn).quat, (localTRS bn).scale⟩ := rfl
    rw [hloc,
      composeTRS_recompute (localTRS bp) (hq bp hbpmem.1) (hs bp hbpmem.1) (localTRS bn)]
  unfold worldNameAux
  rw [hfindn, Option.map_some', hstep]

/-- The wrist keeps its parent link and local transform across
re-parenting, so its world transform is preserved at any fuel. -/
theorem wrist_preserved (bones : List Bone)
    (hflat : ∀ b ∈ bones, b.parent = none)
    (wb : Bone) (hwb : findBone bones "wrist" = some wb) :
    ∀ fuel, worldNameAux fuel (reparentBones bones "wrist") "wrist" =
      some (localTRS wb) := by
  intro fuel
  have hw : (findBone bones "wrist").isSome = true := by rw [hwb]; rfl
  have hwmem := findBone_eq_some hwb
  have hnp : newParentMap bones "wrist" "wrist" = none := by
    rw [npm_not_mem bones "wrist" "wrist" wrist_not_in_chains, hwb]
    exact hflat wb hwmem.1
  have hself : recomputeBone bones "wrist" wb = wb :=
    recomputeBone_eq_self bones "wrist" wb (by rw [hwmem.2]; exact hnp)
      (hflat wb hwmem.1)
  have hname : ∀ b, (recomputeBone bones "wrist" b).name = b.name :=
    recomputeBone_name bones "wrist"
  unfold worldNameAux
  rw [reparent_eq_map bones "wrist" hw, findBone_map_of_name_eq _ hname, hwb,
    Option.map_some', hself, Option.map_some',
    worldAux_parent_none (hflat wb hwmem.1)]

/-- Walking a chain from a preserved, present parent, every present chain
joint is preserved, with fuel growing along the chain. -/
theorem chain_preserved (bones : List Bone)
    (hnd : (bones.map Bone.name).Nodup)
    (hflat : ∀ b ∈ bones, b.parent = none)
    (hq : ∀ b ∈ bones, qnormSq b.quat = 1)
    (hs : ∀ b ∈ bones, b.scale = vone)
    (hw : (findBone bones "wrist").isSome = true) :
    ∀ (c : List String) (p : String) (d : Nat),
      (∃ bp, findBone bones p = some bp ∧ ∀ fuel, d ≤ fuel →
        worldNameAux fuel (reparentBones bones "wrist") p = some (localTRS bp)) →
      (∀ (j : Nat) (hj : j < c.length), presOf bones (c.get ⟨j, hj⟩) = true →
        newParentMap bones "wrist" (c.get ⟨j, hj⟩) =
          some (prevPresent (presOf bones) p c j)) →
      ∀ (j : Nat) (hj : j < c.length), presOf bones (c.get ⟨j, hj⟩) = true →
        ∃ bn, findBone bones (c.get ⟨j, hj⟩) = some bn ∧
          ∀ fuel, d + 1 + j ≤ fuel →
            worldNameAux fuel (reparentBones bones "wrist") (c.get ⟨j, hj⟩) =
              some (localTRS bn) := by
  intro c
  induction c with
  | nil =>
    intro p d _ _ j hj
    cases hj
  | cons m rest ih =>
    intro p d hp hnpm j hj hpres
    cases j with
    | zero =>
      have hget : (m :: rest).get ⟨0, hj⟩ = m := rfl
      rw [hget] at hpres ⊢
      obtain ⟨bn, hbn⟩ := Option.isSome_iff_exists.mp hpres
      obtain ⟨bp, hbp, hpworld⟩ := hp
      have hm := hnpm 0 hj
      rw [hget] at hm
      have hmnp := hm hpres
      have hprev : prevPresent (presOf bones) p (m :: rest) 0 = p := rfl
      rw [hprev] at hmnp
      refine ⟨bn, hbn, ?_⟩
      intro fuel hfuel
      exact step_preserved bones hflat hq hs hw m p hmnp bn hbn bp hbp d hpworld
        fuel (by omega)
    | succ k =>
      have hk : k < rest.length := Nat.lt_of_succ_lt_succ hj
      have hget : (m :: rest).get ⟨k + 1, hj⟩ = rest.get ⟨k, hk⟩ := rfl
      rw [hget] at hpres ⊢
      by_cases hpm : presOf bones m = true
      · -- the head is present: it becomes the running parent for the tail
        have hhead : ∃ bm, findBone bones m = some bm ∧ ∀ fuel, d + 1 ≤ fuel →
            worldNameAux fuel (reparentBones bones "wrist") m = some (localTRS bm) := by
          obtain ⟨bm, hbm⟩ := Option.isSome_iff_exists.mp hpm
          obtain ⟨bp, hbp, hpworld⟩ := hp
          have hm := hnpm 0 (by simp)
          have hget0 : (m :: rest).get ⟨0, by simp⟩ = m := rfl
          rw [hget0] at hm
          have hmnp := hm hpm
          have hprev : prevPresent (presOf bones) p (m :: rest) 0 = p := rfl
          rw [hprev] at hmnp
          exact ⟨bm, hbm, fun fuel hfuel =>
            step_preserved bones hflat hq hs hw m p hmnp bm hbm bp hbp d hpworld
              fuel hfuel⟩
        have hnpm2 : ∀ (i : Nat) (hi : i < rest.length),
            presOf bones (rest.get ⟨i, hi⟩) = true →
            newParentMap bones "wrist" (rest.get ⟨i, hi⟩) =
              some (prevPresent (presOf bones) m rest i) := by
          intro i hi hpi
          have := hnpm (i + 1) (Nat.succ_lt_succ hi)
          have hgeti : (m :: rest).get ⟨i + 1, Nat.succ_lt_succ hi⟩ =
            rest.get ⟨i, hi⟩ := rfl
          rw [hgeti] at this
          have hres := this hpi
          have hprev : prevPresent (presOf bones) p (m :: rest) (i + 1) =
              prevPresent (presOf bones) m rest i := by
            simp [prevPresent, hpm]
          rw [hprev] at hres
          exact hres
        obtain ⟨bn, hbn, hworld⟩ := ih m (d + 1) hhead hnpm2 k hk hpres
        exact ⟨bn, hbn, fun fuel hfuel => hworld fuel (by omega)⟩
      · -- the head is absent: it is skipped, the running parent is kept
        have hnpm2 : ∀ (i : Nat) (hi : i < rest.length),
            presOf bones (rest.get ⟨i, hi⟩) = true →
            newParentMap bones "wrist" (rest.get ⟨i, hi⟩) =
              some (prevPresent (presOf bones) p rest i) := by
          intro i hi hpi
          have := hnpm (i + 1) (Nat.succ_lt_succ hi)
          have hgeti : (m :: rest).get ⟨i + 1, Nat.succ_lt_succ hi⟩ =
            rest.get ⟨i, hi⟩ := rfl
          rw [hgeti] at this
          have hres := this hpi
          have hprev : prevPresent (presOf bones) p (m :: rest) (i + 1) =
              prevPresent (presOf bones) p rest i := by
            simp only [prevPresent]
            rw [if_neg hpm]
          rw [hprev] at hres
          exact hres
        obtain ⟨bn, hbn, hworld⟩ := ih p d hp hnpm2 k hk hpres
        exact ⟨bn, hbn, fun fuel hfuel => hworld fuel (by omega)⟩

/-- Main preservation result: on a flat skeleton with unit rotation
quaternions and bind-pose identity scales, re-parenting preserves the world
transform of every bone. -/
theorem reparent_world_preserved_aux (bones : List Bone)
    (hnd : (bones.map Bone.name).Nodup)
    (hflat : ∀ b ∈ bones, b.parent = none)
    (hq : ∀ b ∈ bones, qnormSq b.quat = 1)
    (hs : ∀ b ∈ bones, b.scale = vone)
    (hw : (findBone bones "wrist").isSome = true) :
    ∀ b ∈ bones, worldByName (reparentBones bones "wrist") b.name =
      worldByName bones b.name := by
  intro b hb
  obtain ⟨wb, hwb⟩ := Option.isSome_iff_exists.mp hw
  have hfbb : findBone bones b.name = some b := findBone_mem_nodup hb hnd
  have hrhs : worldByName bones b.name = some (localTRS b) := by
    unfold worldByName worldBone
    rw [hfbb, Option.map_some', worldAux_parent_none (hflat b hb)]
  rw [hrhs, worldByName_eq_aux]
  by_cases hmem : ∃ c ∈ FINGER_CHAINS, b.name ∈ c
  · obtain ⟨c, hc, hbc⟩ := hmem
    obtain ⟨⟨j, hj⟩, hget⟩ := List.mem_iff_get.mp hbc
    have hpres : presOf bones (c.get ⟨j, hj⟩) = true := by
      unfold presOf
      rw [hget, hfbb]
      rfl
    have hp : ∃ bp, findBone bones "wrist" = some bp ∧ ∀ fuel, 0 ≤ fuel →
        worldNameAux fuel (reparentBones bones "wrist") "wrist" =
          some (localTRS bp) :=
      ⟨wb, hwb, fun fuel _ => wrist_preserved bones hflat wb hwb fuel⟩
    have hnpm : ∀ (i : Nat) (hi : i < c.length),
        presOf bones (c.get ⟨i, hi⟩) = true →
        newParentMap bones "wrist" (c.get ⟨i, hi⟩) =
          some (prevPresent (presOf bones) "wrist" c i) :=
      fun i hi hpi => npm_chain_member bones "wrist" c hc i hi hpi
    obtain ⟨bn, hbn, hworld⟩ :=
      chain_preserved bones hnd hflat hq hs hw c "wrist" 0 hp hnpm j hj hpres
    have hbnb : bn = b := by
      rw [hget] at hbn
      rw [hfbb] at hbn
      exact (Option.some.inj hbn).symm
    have hjle : j < 5 := Nat.lt_of_lt_of_le hj (chains_len_le c hc)
    have := hworld ((reparentBones bones "wrist").length + 8) (by omega)
    rw [hget] at this
    rw [this, hbnb]
  · push_neg at hmem
    have hnp : newParentMap bones "wrist" b.name = none := by
      rw [npm_not_mem bones "wrist" b.name hmem, hfbb]
      exact hflat b hb
    have hself : recomputeBone bones "wrist" b = b :=
      recomputeBone_eq_self bones "wrist" b hnp (hflat b hb)
    have hname : ∀ b2, (recomputeBone bones "wrist" b2).name = b2.name :=
      recomputeBone_name bones "wrist"
    unfold worldNameAux
    rw [reparent_eq_map bones "wrist" hw, findBone_map_of_name_eq _ hname, hfbb,
      Option.map_some', hself, Option.map_some',
      worldAux_parent_none (hflat b hb)]

/-- C1: for every joint of a flat input skeleton that contains a wrist
joint (with unit rotation quaternions and bind-pose identity scales, as
produced by decomposing bind-pose matrices), the world transform after
re-parenting equals the world transform before, exactly in the rational
model (hence within any floating-point tolerance); moreover every
re-parented joint gets local rotation inverse(parent world rotation)
composed with its original world rotation, and local position the
parent-rotation-inverted, parent-scale-divided world offset. -/
theorem reparent_preserves_world_transforms (bones : List Bone)
    (hnd : (bones.map Bone.name).Nodup)
    (hflat : ∀ b ∈ bones, b.parent = none)
    (hq : ∀ b ∈ bones, qnormSq b.quat = 1)
    (hs : ∀ b ∈ bones, b.scale = vone)
    (hw : (findBone bones "wrist").isSome = true) :
    (∀ b ∈ bones, worldByName (reparentBones bones "wrist") b.name =
      worldByName bones b.name) ∧
    (∀ b ∈ bones, ∀ p pw bw, newParentMap bones "wrist" b.name = some p →
      snapOf bones p = some pw → snapOf bones b.name = some bw →
      findBone (reparentBones bones "wrist") b.name = some
        { b with
          parent := some p
          quat := qmul (qconj pw.quat) bw.quat
          pos := vdiv (qrot (qconj pw.quat) (vsub bw.pos pw.pos)) pw.scale }) := by
  constructor
  · exact reparent_world_preserved_aux bones hnd hflat hq hs hw
  · intro b hb p pw bw hnp hpw hbw
    have hname : ∀ b2, (recomputeBone bones "wrist" b2).name = b2.name :=
      recomputeBone_name bones "wrist"
    rw [reparent_eq_map bones "wrist" hw, findBone_map_of_name_eq _ hname,
      findBone_mem_nodup hb hnd, Option.map_some',
      recomputeBone_spec bones "wrist" b p pw bw hnp hpw hbw]

/-- A two-bone flat skeleton used as a concrete witness: a wrist and an
index metacarpal with a non-trivial unit rotation. -/
def wristW : Bone := ⟨"wrist", ⟨0, 0, 0⟩, ⟨0, 0, 0, 1⟩, ⟨1, 1, 1⟩, none⟩

/-- Witness bone: index metacarpal, unit quaternion (3/5, 4/5, 0, 0). -/
def idxMetaW : Bone :=
  ⟨"index-finger-metacarpal", ⟨1, 2, 3⟩, ⟨3/5, 4/5, 0, 0⟩, ⟨1, 1, 1⟩, none⟩

/-- Witness bone: index proximal phalanx, unit quaternion (0, 3/5, 0, 4/5). -/
def idxProxW : Bone :=
  ⟨"index-finger-phalanx-proximal", ⟨2, 0, 1⟩, ⟨0, 3/5, 0, 4/5⟩, ⟨1, 1, 1⟩, none⟩

theorem reparent_preserves_world_transforms_witness :
    (([wristW, idxMetaW, idxProxW].map Bone.name).Nodup ∧
     (∀ b ∈ [wristW, idxMetaW, idxProxW], b.parent = none) ∧
     (∀ b ∈ [wristW, idxMetaW, idxProxW], qnormSq b.quat = 1) ∧
     (∀ b ∈ [wristW, idxMetaW, idxProxW], b.scale = vone) ∧
     (findBone [wristW, idxMetaW, idxProxW] "wrist").isSome = true) ∧
    (∀ b ∈ [wristW, idxMetaW, idxProxW],
      worldByName (reparentBones [wristW, idxMetaW, idxProxW] "wrist") b.name =
        worldByName [wristW, idxMetaW, idxProxW] b.name) :=
  ⟨⟨by decide, by decide,
    by intro b hb; fin_cases hb <;> norm_num [qnormSq, wristW, idxMetaW, idxProxW],
    by decide, by decide⟩,
   (reparent_preserves_world_transforms [wristW, idxMetaW, idxProxW]
     (by decide) (by decide)
     (by intro b hb; fin_cases hb <;> norm_num [qnormSq, wristW, idxMetaW, idxProxW])
     (by decide) (by decide)).1⟩

/-- C5: on an already-hierarchical skeleton (two joints with different
parent links), the flat-structure detection evaluates false, re-parenting
is skipped, and every parent link and local transform is left unchanged:
normalization is the identity. -/
theorem normalize_hierarchical_noop (bones : List Bone) (b1 b2 : Bone)
    (h1 : b1 ∈ bones) (h2 : b2 ∈ bones) (hne : b1.parent ≠ b2.parent) :
    isFlat bones = false ∧ normalizeSkeleton bones = bones := by
  have hflatfalse : isFlat bones = false := by
    cases hbones : bones with
    | nil =>
      subst hbones
      cases h1
    | cons b0 rest =>
      subst hbones
      cases hf : isFlat (b0 :: rest) with
      | false => rfl
      | true =>
        exfalso
        unfold isFlat at hf
        have hall := List.all_eq_true.mp hf
        have e1 : b1.parent = b0.parent := by
          have := hall b1 h1
          exact eq_of_beq this
        have e2 : b2.parent = b0.parent := by
          have := hall b2 h2
          exact eq_of_beq this
        exact hne (e1.trans e2.symm)
  refine ⟨hflatfalse, ?_⟩
  unfold normalizeSkeleton
  rw [hflatfalse]
  simp

/-- A hierarchical two-bone skeleton: the metacarpal is already parented
to the wrist. -/
def idxMetaLinkedW : Bone :=
  ⟨"index-finger-metacarpal", ⟨1, 2, 3⟩, ⟨3/5, 4/5, 0, 0⟩, ⟨1, 1, 1⟩, some "wrist"⟩

theorem normalize_hierarchical_noop_witness :
    (wristW ∈ [wristW, idxMetaLinkedW] ∧ idxMetaLinkedW ∈ [wristW, idxMetaLinkedW] ∧
      wristW.parent ≠ idxMetaLinkedW.parent) ∧
    (isFlat [wristW, idxMetaLinkedW] = false ∧
      normalizeSkeleton [wristW, idxMetaLinkedW] = [wristW, idxMetaLinkedW]) :=
  ⟨⟨List.mem_cons_self wristW [idxMetaLinkedW],
    List.mem_cons_of_mem wristW (List.mem_cons_self idxMetaLinkedW []),
    by decide⟩,
   normalize_hierarchical_noop [wristW, idxMetaLinkedW] wristW idxMetaLinkedW
     (List.mem_cons_self wristW [idxMetaLinkedW])
     (List.mem_cons_of_mem wristW (List.mem_cons_self idxMetaLinkedW []))
     (by decide)⟩

/-- C6: if the skeleton has no joint with the wrist name, normalization
aborts before altering anything: the bone list, every parent link and every
local transform is returned exactly as given, and the aborted condition is
the flag the caller observes. -/
theorem missing_wrist_aborts (bones : List Bone) (w : String)
    (hw : findBone bones w = none) :
    reparentBones bones w = bones ∧ reparentAborted bones w = true := by
  constructor
  · unfold reparentBones
    rw [hw]
  · unfold reparentAborted
    rw [hw]
    rfl

theorem missing_wrist_aborts_witness :
    (findBone [idxMetaW, idxProxW] "wrist" = none) ∧
    (reparentBones [idxMetaW, idxProxW] "wrist" = [idxMetaW, idxProxW] ∧
      reparentAborted [idxMetaW, idxProxW] "wrist" = true) :=
  ⟨by decide, missing_wrist_aborts [idxMetaW, idxProxW] "wrist" (by decide)⟩

/-- C7: a finger-chain joint name absent from the skeleton is skipped: a
present chain joint is re-linked to the closest present earlier chain
joint, or the wrist when none is present, and its world transform (hence a
well-defined local transform) is still preserved. -/
theorem missing_chain_joint_bridged (bones : List Bone)
    (hnd : (bones.map Bone.name).Nodup)
    (hflat : ∀ b ∈ bones, b.parent = none)
    (hq : ∀ b ∈ bones, qnormSq b.quat = 1)
    (hs : ∀ b ∈ bones, b.scale = vone)
    (hw : (findBone bones "wrist").isSome = true)
    (c : List String) (hc : c ∈ FINGER_CHAINS)
    (j : Nat) (hj : j < c.length)
    (hpres : presOf bones (c.get ⟨j, hj⟩) = true) :
    (∃ bn, findBone (reparentBones bones "wrist") (c.get ⟨j, hj⟩) = some bn ∧
      bn.parent = some (prevPresent (presOf bones) "wrist" c j)) ∧
    worldByName (reparentBones bones "wrist") (c.get ⟨j, hj⟩) =
      worldByName bones (c.get ⟨j, hj⟩) := by
  obtain ⟨b0, hb0⟩ := Option.isSome_iff_exists.mp hpres
  have hb0mem := findBone_eq_some hb0
  have hname : ∀ b2, (recomputeBone bones "wrist" b2).name = b2.name :=
    recomputeBone_name bones "wrist"
  constructor
  · refine ⟨recomputeBone bones "wrist" b0, ?_, ?_⟩
    · rw [reparent_eq_map bones "wrist" hw, findBone_map_of_name_eq _ hname, hb0,
        Option.map_some']
    · rw [recomputeBone_parent, hb0mem.2]
      exact npm_chain_member bones "wrist" c hc j hj hpres
  · have := reparent_world_preserved_aux bones hnd hflat hq hs hw b0 hb0mem.1
    rw [hb0mem.2] at this
    exact this

theorem missing_chain_joint_bridged_witness :
    ((([wristW, idxProxW].map Bone.name).Nodup ∧
      (∀ b ∈ [wristW, idxProxW], b.parent = none) ∧
      (∀ b ∈ [wristW, idxProxW], qnormSq b.quat = 1) ∧
      (∀ b ∈ [wristW, idxProxW], b.scale = vone) ∧
      (findBone [wristW, idxProxW] "wrist").isSome = true) ∧
     ["index-finger-metacarpal", "index-finger-phalanx-proximal",
      "index-finger-phalanx-intermediate", "index-finger-phalanx-distal",
      "index-finger-tip"] ∈ FINGER_CHAINS ∧
     presOf [wristW, idxProxW]
       (["index-finger-metacarpal", "index-finger-phalanx-proximal",
         "index-finger-phalanx-intermediate", "index-finger-phalanx-distal",
         "index-finger-tip"].get ⟨1, by decide⟩) = true) ∧
    ((∃ bn, findBone (reparentBones [wristW, idxProxW] "wrist")
        (["index-finger-metacarpal", "index-finger-phalanx-proximal",
          "index-finger-phalanx-intermediate", "index-finger-phalanx-distal",
          "index-finger-tip"].get ⟨1, by decide⟩) = some bn ∧
        bn.parent = some (prevPresent (presOf [wristW, idxProxW]) "wrist"
          ["index-finger-metacarpal", "index-finger-phalanx-proximal",
           "index-finger-phalanx-intermediate", "index-finger-phalanx-distal",
           "index-finger-tip"] 1)) ∧
      worldByName (reparentBones [wristW, idxProxW] "wrist")
        (["index-finger-metacarpal", "index-finger-phalanx-proximal",
          "index-finger-phalanx-intermediate", "index-finger-phalanx-distal",
          "index-finger-tip"].get ⟨1, by decide⟩) =
        worldByName [wristW, idxProxW]
          (["index-finger-metacarpal", "index-finger-phalanx-proximal",
            "index-finger-phalanx-intermediate", "index-finger-phalanx-distal",
            "index-finger-tip"].get ⟨1, by decide⟩)) :=
  ⟨⟨⟨by decide, by decide,
     by intro b hb; fin_cases hb <;> norm_num [qnormSq, wristW, idxProxW],
     by decide, by decide⟩, by decide, by decide⟩,
   missing_chain_joint_bridged [wristW, idxProxW]
     (by decide) (by decide)
     (by intro b hb; fin_cases hb <;> norm_num [qnormSq, wristW, idxProxW])
     (by decide) (by decide)
     ["index-finger-metacarpal", "index-finger-phalanx-proximal",
      "index-finger-phalanx-intermediate", "index-finger-phalanx-distal",
      "index-finger-tip"] (by decide) 1 (by decide) (by decide)⟩

/-!
Hand animator model, over the reals (HandAnimator.js).

Angle constants are stored in radians as value times pi over 180, exactly
as in the source.  Rotations about the coordinate axes use the
setFromAxisAngle formula; the wrist orientation uses the setFromEuler
component formulas for the YXZ order.
-/

/-- The five finger control channels (FINGER_NAMES). -/
inductive Finger
  | thumb
  | index
  | middle
  | ring
  | pinky
deriving DecidableEq, Repr

/-- The per-finger joint slots of the animator (meta, mcp, pip, dip). -/
inductive Joint
  | meta
  | mcp
  | pip
  | dip
deriving DecidableEq, Repr

noncomputable section

/-- Degrees to radians factor (DEG_TO_RAD). -/
def DEG_TO_RAD : ℝ := Real.pi / 180

/-- JOINT_MAX_ANGLES: maximum flexion angle per joint type, radians. -/
def JOINT_MAX_ANGLES : Joint → ℝ
  | Joint.meta => 15 * DEG_TO_RAD
  | Joint.mcp => 50 * DEG_TO_RAD
  | Joint.pip => 55 * DEG_TO_RAD
  | Joint.dip => 35 * DEG_TO_RAD

/-- THUMB_MAX_ANGLES: thumb-specific maxima; the meta slot is never read
on the thumb path (the thumb joint list is mcp, pip, dip). -/
def THUMB_MAX_ANGLES : Joint → ℝ
  | Joint.meta => 0
  | Joint.mcp => 25 * DEG_TO_RAD
  | Joint.pip => 30 * DEG_TO_RAD
  | Joint.dip => 35 * DEG_TO_RAD

/-- MCP_ABDUCTION: dynamic convergence coefficients; the thumb key is
absent in the source table and reads as 0. -/
def MCP_ABDUCTION : Finger → ℝ
  | Finger.thumb => 0
  | Finger.index => 5 * DEG_TO_RAD
  | Finger.middle => 0
  | Finger.ring => -5 * DEG_TO_RAD
  | Finger.pinky => -10 * DEG_TO_RAD

/-- REST_SPLAY: constant per-finger lateral fan angles; the thumb key is
absent in the source table and reads as 0. -/
def REST_SPLAY : Finger → ℝ
  | Finger.thumb => 0
  | Finger.index => 8 * DEG_TO_RAD
  | Finger.middle => 2 * DEG_TO_RAD
  | Finger.ring => -4 * DEG_TO_RAD
  | Finger.pinky => -12 * DEG_TO_RAD

/-- JOINT_DISTRIBUTION: fraction of the finger curl each joint receives. -/
def JOINT_DISTRIBUTION : Joint → ℝ
  | Joint.meta => 0.5
  | Joint.mcp => 1.0
  | Joint.pip => 0.9
  | Joint.dip => 0.6

/-- Quaternion.setFromAxisAngle for a general axis. -/
def qAxisAngle (ax ay az θ : ℝ) : Quat ℝ :=
  ⟨ax * Real.sin (θ / 2), ay * Real.sin (θ / 2), az * Real.sin (θ / 2),
   Real.cos (θ / 2)⟩

/-- Rotation about the x axis. -/
def qX (θ : ℝ) : Quat ℝ := qAxisAngle 1 0 0 θ

/-- Rotation about the y axis. -/
def qY (θ : ℝ) : Quat ℝ := qAxisAngle 0 1 0 θ

/-- Rotation about the z axis. -/
def qZ (θ : ℝ) : Quat ℝ := qAxisAngle 0 0 1 θ

/-- The per-joint local rotation computed by _applyFingerRotations and
_applyThumbRotation for the current bend value of the finger, anchored at
the rest-pose quaternion of the bone. -/
def jointLocalQuat (finger : Finger) (joint : Joint) (bend : ℝ)
    (rest : Quat ℝ) : Quat ℝ :=
  if finger = Finger.thumb then
    if joint = Joint.mcp then
      qmul (qmul rest (qY (-(bend * bend) * THUMB_MAX_ANGLES joint * 0.6)))
        (qX (-(bend * THUMB_MAX_ANGLES joint)))
    else
      qmul rest (qX (-(bend * THUMB_MAX_ANGLES joint)))
  else
    if joint = Joint.mcp then
      qmul (qmul (qmul rest (qZ (REST_SPLAY finger)))
        (qY (MCP_ABDUCTION finger * bend)))
        (qX (-(min 1 (bend * JOINT_DISTRIBUTION joint) * JOINT_MAX_ANGLES joint)))
    else
      qmul rest
        (qX (-(min 1 (bend * JOINT_DISTRIBUTION joint) * JOINT_MAX_ANGLES joint)))

/-- Quaternion.setFromEuler for the YXZ order, exactly the three.js
component formulas (x applied as pitch, y as yaw, z as roll). -/
def eulerYXZQuat (x y z : ℝ) : Quat ℝ :=
  ⟨Real.sin (x / 2) * Real.cos (y / 2) * Real.cos (z / 2) +
     Real.cos (x / 2) * Real.sin (y / 2) * Real.sin (z / 2),
   Real.cos (x / 2) * Real.sin (y / 2) * Real.cos (z / 2) -
     Real.sin (x / 2) * Real.cos (y / 2) * Real.sin (z / 2),
   Real.cos (x / 2) * Real.cos (y / 2) * Real.sin (z / 2) -
     Real.sin (x / 2) * Real.sin (y / 2) * Real.cos (z / 2),
   Real.cos (x / 2) * Real.cos (y / 2) * Real.cos (z / 2) +
     Real.sin (x / 2) * Real.sin (y / 2) * Real.sin (z / 2)⟩

/-- The wrist local rotation computed by _applyWristOrientation: rest
composed with the orientation rotation built from roll, pitch, yaw in
degrees via the YXZ Euler order. -/
def wristLocalQuat (roll pitch yaw : ℝ) (rest : Quat ℝ) : Quat ℝ :=
  qmul rest (eulerYXZQuat (pitch * DEG_TO_RAD) (yaw * DEG_TO_RAD) (roll * DEG_TO_RAD))

/-- A control-state record: five finger curls and a wrist orientation. -/
structure ControlState where
  fingers : Finger → ℝ
  roll : ℝ
  pitch : ℝ
  yaw : ℝ

/-- The animator interpolation state: current, target, smoothing. -/
structure PoseState where
  current : ControlState
  target : ControlState
  smoothing : ℝ

/-- THREE.MathUtils.lerp. -/
def lerp3 (x y t : ℝ) : ℝ := (1 - t) * x + t * y

/-- The frame-rate-independent blend factor of update:
1 - (1 - smoothing) ^ (deltaTime * 60). -/
def alphaOf (smoothing dt : ℝ) : ℝ := 1 - (1 - smoothing) ^ (dt * 60)

/-- The interpolation step of update(deltaTime): every scalar of the
current state is lerped toward the target with the same alpha. -/
def PoseState.update (s : PoseState) (dt : ℝ) : PoseState :=
  { s with current :=
    { fingers := fun f =>
        lerp3 (s.current.fingers f) (s.target.fingers f) (alphaOf s.smoothing dt)
      roll := lerp3 s.current.roll s.target.roll (alphaOf s.smoothing dt)
      pitch := lerp3 s.current.pitch s.target.pitch (alphaOf s.smoothing dt)
      yaw := lerp3 s.current.yaw s.target.yaw (alphaOf s.smoothing dt) } }

/-- The smoothing setter: clamp the assigned value into the 0.01 to 1.0
range. -/
def PoseState.setSmoothing (s : PoseState) (v : ℝ) : PoseState :=
  { s with smoothing := max 0.01 (min 1.0 v) }

/-- One smoothing step at blend factor a is well-behaved: it is the lerp
defining equation, the distance to the target does not increase, it
strictly decreases while nonzero, and the target is never overshot. -/
def stepOK (a c t cNew : ℝ) : Prop :=
  cNew = c + (t - c) * a ∧ |cNew - t| ≤ |c - t| ∧
  (c ≠ t → |cNew - t| < |c - t|) ∧ 0 ≤ (t - cNew) * (t - c)

/-- The first-joint composition recipe as the specification words it:
rest, then static splay, then dynamic abduction scaling linearly with the
curl, then flexion about the bend axis by min(1, bend times weight) times
maxAngle with the global negative sign convention. -/
def specFirstJointQuat (f : Finger) (j : Joint) (bend : ℝ) (rest : Quat ℝ) : Quat ℝ :=
  qmul (qmul (qmul rest (qZ (REST_SPLAY f))) (qY (MCP_ABDUCTION f * bend)))
    (qX (-(min 1 (bend * JOINT_DISTRIBUTION j) * JOINT_MAX_ANGLES j)))

/-- The subsequent-joint recipe as the specification words it: rest, then
flexion only. -/
def specFlexJointQuat (f : Finger) (j : Joint) (bend : ℝ) (rest : Quat ℝ) : Quat ℝ :=
  qmul rest (qX (-(min 1 (bend * JOINT_DISTRIBUTION j) * JOINT_MAX_ANGLES j)))

end

theorem qX_zero : qX 0 = qone := by
  simp [qX, qAxisAngle, qone]

theorem qY_zero : qY 0 = qone := by
  simp [qY, qAxisAngle, qone]

theorem qZ_zero : qZ 0 = qone := by
  simp [qZ, qAxisAngle, qone]

/-- The sine of c times pi is positive for c strictly between 0 and 1. -/
theorem sin_coeff_pi_pos (c : ℝ) (h0 : 0 < c) (h1 : c < 1) :
    0 < Real.sin (c * Real.pi) := by
  apply Real.sin_pos_of_pos_of_lt_pi
  · positivity
  · nlinarith [Real.pi_pos]

theorem jlq_thumb_nonmcp (j : Joint) (hj : j ≠ Joint.mcp) (bend : ℝ) (rest : Quat ℝ) :
    jointLocalQuat Finger.thumb j bend rest =
      qmul rest (qX (-(bend * THUMB_MAX_ANGLES j))) := by
  simp [jointLocalQuat, hj]

theorem jlq_thumb_mcp (bend : ℝ) (rest : Quat ℝ) :
    jointLocalQuat Finger.thumb Joint.mcp bend rest =
      qmul (qmul rest (qY (-(bend * bend) * THUMB_MAX_ANGLES Joint.mcp * 0.6)))
        (qX (-(bend * THUMB_MAX_ANGLES Joint.mcp))) := by
  simp [jointLocalQuat]

theorem jlq_reg_mcp (f : Finger) (hf : f ≠ Finger.thumb) (bend : ℝ) (rest : Quat ℝ) :
    jointLocalQuat f Joint.mcp bend rest =
      qmul (qmul (qmul rest (qZ (REST_SPLAY f))) (qY (MCP_ABDUCTION f * bend)))
        (qX (-(min 1 (bend * JOINT_DISTRIBUTION Joint.mcp) *
          JOINT_MAX_ANGLES Joint.mcp))) := by
  simp [jointLocalQuat, hf]

theorem jlq_reg_nonmcp (f : Finger) (hf : f ≠ Finger.thumb) (j : Joint)
    (hj : j ≠ Joint.mcp) (bend : ℝ) (rest : Quat ℝ) :
    jointLocalQuat f j bend rest =
      qmul rest (qX (-(min 1 (bend * JOINT_DISTRIBUTION j) * JOINT_MAX_ANGLES j))) := by
  simp [jointLocalQuat, hf, hj]

theorem qX_zero_bend (m : ℝ) : qX (-(0 * m)) = qone := by
  rw [show -((0 : ℝ) * m) = 0 by ring, qX_zero]

theorem qX_min_zero_bend (d m : ℝ) : qX (-(min 1 (0 * d) * m)) = qone := by
  rw [zero_mul, min_eq_right (by norm_num : (0 : ℝ) ≤ 1),
    show -((0 : ℝ) * m) = 0 by ring, qX_zero]

theorem qY_zero_bend (a : ℝ) : qY (a * 0) = qone := by
  rw [mul_zero, qY_zero]

theorem qY_opposition_zero_bend (m : ℝ) : qY (-((0 : ℝ) * 0) * m * 0.6) = qone := by
  rw [show -((0 : ℝ) * 0) * m * 0.6 = 0 by ring, qY_zero]

theorem eulerYXZQuat_zero : eulerYXZQuat 0 0 0 = qone := by
  simp [eulerYXZQuat, qone]

/-- C2 (counterexample): at the neutral frame the index MCP rotation is
rest composed with the constant rest splay, not the rest rotation: with
identity rest pose the computed rotation is not the identity. -/
theorem neutral_pose_exact_counterexample :
    jointLocalQuat Finger.index Joint.mcp 0 qone ≠ qone := by
  intro h
  rw [jlq_reg_mcp Finger.index (by decide) 0 qone, qY_zero_bend, qmul_one,
    qX_min_zero_bend, qmul_one, one_qmul] at h
  have hz := congrArg Quat.z h
  simp only [qZ, qAxisAngle, qone, one_mul] at hz
  have hsin : (0 : ℝ) < Real.sin (REST_SPLAY Finger.index / 2) := by
    have harg : REST_SPLAY Finger.index / 2 = (4 / 180 : ℝ) * Real.pi := by
      show (8 : ℝ) * DEG_TO_RAD / 2 = (4 / 180 : ℝ) * Real.pi
      unfold DEG_TO_RAD
      ring
    rw [harg]
    exact sin_coeff_pi_pos (4 / 180) (by norm_num) (by norm_num)
  rw [hz] at hsin
  exact lt_irrefl 0 hsin

/-- C2 (amended): at the neutral frame (all curls 0, orientation zero),
every animated joint other than the regular-finger MCP joints reproduces
its rest rotation exactly; each regular-finger MCP instead reproduces rest
composed with its constant static splay, which is applied regardless of
bend. -/
theorem neutral_pose_amended (f : Finger) (rest : Quat ℝ) :
    jointLocalQuat f Joint.meta 0 rest = rest ∧
    jointLocalQuat f Joint.pip 0 rest = rest ∧
    jointLocalQuat f Joint.dip 0 rest = rest ∧
    jointLocalQuat Finger.thumb Joint.mcp 0 rest = rest ∧
    (f ≠ Finger.thumb →
      jointLocalQuat f Joint.mcp 0 rest = qmul rest (qZ (REST_SPLAY f))) ∧
    wristLocalQuat 0 0 0 rest = rest := by
  refine ⟨?_, ?_, ?_, ?_, ?_, ?_⟩
  · by_cases hf : f = Finger.thumb
    · subst hf
      rw [jlq_thumb_nonmcp Joint.meta (by decide) 0 rest, qX_zero_bend, qmul_one]
    · rw [jlq_reg_nonmcp f hf Joint.meta (by decide) 0 rest, qX_min_zero_bend, qmul_one]
  · by_cases hf : f = Finger.thumb
    · subst hf
      rw [jlq_thumb_nonmcp Joint.pip (by decide) 0 rest, qX_zero_bend, qmul_one]
    · rw [jlq_reg_nonmcp f hf Joint.pip (by decide) 0 rest, qX_min_zero_bend, qmul_one]
  · by_cases hf : f = Finger.thumb
    · subst hf
      rw [jlq_thumb_nonmcp Joint.dip (by decide) 0 rest, qX_zero_bend, qmul_one]
    · rw [jlq_reg_nonmcp f hf Joint.dip (by decide) 0 rest, qX_min_zero_bend, qmul_one]
  · rw [jlq_thumb_mcp 0 rest, qY_opposition_zero_bend, qmul_one, qX_zero_bend, qmul_one]
  · intro hf
    rw [jlq_reg_mcp f hf 0 rest, qY_zero_bend, qmul_one, qX_min_zero_bend, qmul_one]
  · unfold wristLocalQuat
    rw [zero_mul, eulerYXZQuat_zero, qmul_one]

theorem neutral_pose_amended_witness :
    Finger.index ≠ Finger.thumb ∧
    jointLocalQuat Finger.index Joint.mcp 0 qone =
      qmul qone (qZ (REST_SPLAY Finger.index)) :=
  ⟨by decide, (neutral_pose_amended Finger.index qone).2.2.2.2.1 (by decide)⟩

/-- C3 (counterexample): bend is not clamped below: at the index PIP
joint, bend -1/2 hyperextends instead of behaving like bend 0, so the
computed rotations differ. -/
theorem bend_clamp_counterexample :
    jointLocalQuat Finger.index Joint.pip (-(1 / 2)) qone ≠
      jointLocalQuat Finger.index Joint.pip 0 qone := by
  intro h
  rw [jlq_reg_nonmcp Finger.index (by decide) Joint.pip (by decide) (-(1 / 2)) qone,
    jlq_reg_nonmcp Finger.index (by decide) Joint.pip (by decide) 0 qone,
    qX_min_zero_bend, qmul_one, one_qmul] at h
  have harg : -(min 1 (-(1 / 2 : ℝ) * JOINT_DISTRIBUTION Joint.pip) *
      JOINT_MAX_ANGLES Joint.pip) = (11 / 80 : ℝ) * Real.pi := by
    show -(min 1 (-(1 / 2 : ℝ) * 0.9) * (55 * DEG_TO_RAD)) = (11 / 80 : ℝ) * Real.pi
    rw [min_eq_right (by norm_num : -(1 / 2 : ℝ) * 0.9 ≤ 1)]
    unfold DEG_TO_RAD
    ring
  rw [harg] at h
  have hx := congrArg Quat.x h
  simp only [qX, qAxisAngle, qone, one_mul] at hx
  have hsin : (0 : ℝ) < Real.sin ((11 / 80 : ℝ) * Real.pi / 2) := by
    have harg2 : (11 / 80 : ℝ) * Real.pi / 2 = (11 / 160 : ℝ) * Real.pi := by ring
    rw [harg2]
    exact sin_coeff_pi_pos (11 / 160) (by norm_num) (by norm_num)
  rw [hx] at hsin
  exact lt_irrefl 0 hsin

/-- C3 (amended): only the distributed flexion input is clamped, and only
from above: the effective bend is min(1, bend times distribution weight).
For joints driven by pure flexion, two bend inputs with the same clamped
effective value produce identical rotations; the dynamic-abduction and
thumb-opposition terms use the raw bend, and negative bends pass through
unclamped. -/
theorem bend_clamp_amended (f : Finger) (j : Joint) (b1 b2 : ℝ) (rest : Quat ℝ)
    (hf : f ≠ Finger.thumb) (hj : j ≠ Joint.mcp)
    (hmin : min 1 (b1 * JOINT_DISTRIBUTION j) = min 1 (b2 * JOINT_DISTRIBUTION j)) :
    jointLocalQuat f j b1 rest = jointLocalQuat f j b2 rest := by
  rw [jlq_reg_nonmcp f hf j hj, jlq_reg_nonmcp f hf j hj, hmin]

theorem bend_clamp_amended_witness :
    (Finger.index ≠ Finger.thumb ∧ Joint.pip ≠ Joint.mcp ∧
      min 1 ((2 : ℝ) * JOINT_DISTRIBUTION Joint.pip) =
        min 1 ((10 / 9 : ℝ) * JOINT_DISTRIBUTION Joint.pip)) ∧
    jointLocalQuat Finger.index Joint.pip 2 qone =
      jointLocalQuat Finger.index Joint.pip (10 / 9) qone :=
  ⟨⟨by decide, by decide, by norm_num [JOINT_DISTRIBUTION]⟩,
   bend_clamp_amended Finger.index Joint.pip 2 (10 / 9) qone (by decide) (by decide)
     (by norm_num [JOINT_DISTRIBUTION])⟩

/-- C8 (counterexample): the first chain joint of a regular finger is the
metacarpal, and it receives pure flexion, not the splay-abduction-flexion
composite the claim assigns to the first joint: at bend 0 with identity
rest the code computes the identity while the claimed recipe computes the
splay rotation. -/
theorem first_joint_recipe_counterexample :
    jointLocalQuat Finger.index Joint.meta 0 qone ≠
      specFirstJointQuat Finger.index Joint.meta 0 qone := by
  intro h
  rw [jlq_reg_nonmcp Finger.index (by decide) Joint.meta (by decide) 0 qone,
    qX_min_zero_bend, qmul_one] at h
  unfold specFirstJointQuat at h
  rw [qY_zero_bend, qmul_one, qX_min_zero_bend, qmul_one, one_qmul] at h
  have hz := congrArg Quat.z h
  simp only [qZ, qAxisAngle, qone, one_mul] at hz
  have hsin : (0 : ℝ) < Real.sin (REST_SPLAY Finger.index / 2) := by
    have harg : REST_SPLAY Finger.index / 2 = (4 / 180 : ℝ) * Real.pi := by
      show (8 : ℝ) * DEG_TO_RAD / 2 = (4 / 180 : ℝ) * Real.pi
      unfold DEG_TO_RAD
      ring
    rw [harg]
    exact sin_coeff_pi_pos (4 / 180) (by norm_num) (by norm_num)
  rw [← hz] at hsin
  exact lt_irrefl 0 hsin

/-- C8 (amended): for a regular finger it is the MCP joint (the second
chain entry, the proximal phalanx at the knuckle) that gets rest, static
splay, linear dynamic abduction and flexion, in that order; the metacarpal
first joint and the pip and dip joints get rest composed with flexion
only, with flexion angle minus min(1, bend times weight) times maxAngle. -/
theorem finger_recipe_amended (f : Finger) (bend : ℝ) (rest : Quat ℝ)
    (hf : f ≠ Finger.thumb) :
    jointLocalQuat f Joint.mcp bend rest = specFirstJointQuat f Joint.mcp bend rest ∧
    ∀ j, j ≠ Joint.mcp →
      jointLocalQuat f j bend rest = specFlexJointQuat f j bend rest := by
  constructor
  · rw [jlq_reg_mcp f hf]
    rfl
  · intro j hj
    rw [jlq_reg_nonmcp f hf j hj]
    rfl

theorem finger_recipe_amended_witness :
    Finger.index ≠ Finger.thumb ∧
    (jointLocalQuat Finger.index Joint.mcp 1 qone =
      specFirstJointQuat Finger.index Joint.mcp 1 qone ∧
     ∀ j, j ≠ Joint.mcp →
      jointLocalQuat Finger.index j 1 qone = specFlexJointQuat Finger.index j 1 qone) :=
  ⟨by decide, finger_recipe_amended Finger.index 1 qone (by decide)⟩

/-- C9: the wrist orientation rotation equals the composition yaw about y,
then pitch about x, then roll about z (degrees converted to radians), and
the wrist local rotation is rest composed with it; at zero orientation the
wrist reproduces its rest rotation exactly. -/
theorem wrist_orientation_composition (roll pitch yaw : ℝ) (rest : Quat ℝ) :
    wristLocalQuat roll pitch yaw rest =
      qmul rest (qmul (qmul (qY (yaw * DEG_TO_RAD)) (qX (pitch * DEG_TO_RAD)))
        (qZ (roll * DEG_TO_RAD))) ∧
    wristLocalQuat 0 0 0 rest = rest := by
  constructor
  · unfold wristLocalQuat
    congr 1
    simp only [eulerYXZQuat, qX, qY, qZ, qAxisAngle, qmul, Quat.mk.injEq]
    refine ⟨?_, ?_, ?_, ?_⟩ <;> ring
  · unfold wristLocalQuat
    rw [zero_mul, eulerYXZQuat_zero, qmul_one]

theorem alpha_bounds (sm dt : ℝ) (h0 : 0 < sm) (h1 : sm < 1) (hdt : 0 < dt) :
    0 < alphaOf sm dt ∧ alphaOf sm dt < 1 := by
  unfold alphaOf
  have hb0 : (0 : ℝ) < 1 - sm := by linarith
  have hb1 : 1 - sm < 1 := by linarith
  have hpow_lt : (1 - sm) ^ (dt * 60) < 1 :=
    Real.rpow_lt_one (le_of_lt hb0) hb1 (by positivity)
  have hpow_pos : 0 < (1 - sm) ^ (dt * 60) := Real.rpow_pos_of_pos hb0 _
  constructor <;> linarith

theorem stepOK_lerp (a c t : ℝ) (ha0 : 0 < a) (ha1 : a < 1) :
    stepOK a c t (lerp3 c t a) := by
  unfold stepOK lerp3
  have hid : (1 - a) * c + a * t - t = (1 - a) * (c - t) := by ring
  refine ⟨by ring, ?_, ?_, ?_⟩
  · rw [hid, abs_mul, abs_of_nonneg (by linarith : (0 : ℝ) ≤ 1 - a)]
    nlinarith [abs_nonneg (c - t)]
  · intro hne
    rw [hid, abs_mul, abs_of_nonneg (by linarith : (0 : ℝ) ≤ 1 - a)]
    have habs : 0 < |c - t| := abs_pos.mpr (sub_ne_zero.mpr hne)
    nlinarith
  · have hid2 : (t - ((1 - a) * c + a * t)) * (t - c) = (1 - a) * ((t - c) * (t - c)) := by
      ring
    rw [hid2]
    exact mul_nonneg (by linarith) (mul_self_nonneg _)

/-- C4: for smoothing in (0,1) and positive deltaTime, every scalar field
of the current state is advanced by the lerp
current + (target - current) times alpha with
alpha = 1 - (1 - smoothing) ^ (deltaTime times 60); the distance to the
target never increases, strictly decreases while nonzero, and the target
is never overshot. -/
theorem pose_update_monotonic (s : PoseState) (dt : ℝ)
    (h0 : 0 < s.smoothing) (h1 : s.smoothing < 1) (hdt : 0 < dt) :
    (∀ f, stepOK (alphaOf s.smoothing dt) (s.current.fingers f)
      (s.target.fingers f) ((s.update dt).current.fingers f)) ∧
    stepOK (alphaOf s.smoothing dt) s.current.roll s.target.roll
      ((s.update dt).current.roll) ∧
    stepOK (alphaOf s.smoothing dt) s.current.pitch s.target.pitch
      ((s.update dt).current.pitch) ∧
    stepOK (alphaOf s.smoothing dt) s.current.yaw s.target.yaw
      ((s.update dt).current.yaw) := by
  obtain ⟨ha0, ha1⟩ := alpha_bounds s.smoothing dt h0 h1 hdt
  exact ⟨fun f => stepOK_lerp _ _ _ ha0 ha1, stepOK_lerp _ _ _ ha0 ha1,
    stepOK_lerp _ _ _ ha0 ha1, stepOK_lerp _ _ _ ha0 ha1⟩

/-- A concrete pose state used as a witness: all currents zero, targets
nonzero, smoothing one half. -/
noncomputable def poseW : PoseState :=
  ⟨⟨fun _ => 0, 0, 0, 0⟩, ⟨fun _ => 1, 10, 20, 30⟩, 1 / 2⟩

theorem pose_update_monotonic_witness :
    (0 < poseW.smoothing ∧ poseW.smoothing < 1 ∧ 0 < (1 / 60 : ℝ)) ∧
    (∀ f, stepOK (alphaOf poseW.smoothing (1 / 60))
      (poseW.current.fingers f) (poseW.target.fingers f)
      ((poseW.update (1 / 60)).current.fingers f)) :=
  ⟨⟨by norm_num [poseW], by norm_num [poseW], by norm_num⟩,
   (pose_update_monotonic poseW (1 / 60) (by norm_num [poseW])
     (by norm_num [poseW]) (by norm_num)).1⟩

/-- C10: the smoothing setter stores max(0.01, min(1.0, v)), so the stored
smoothing factor always lies in the closed interval from 0.01 to 1. -/
theorem smoothing_setter_clamps (s : PoseState) (v : ℝ) :
    (s.setSmoothing v).smoothing = max 0.01 (min 1.0 v) ∧
    0.01 ≤ (s.setSmoothing v).smoothing ∧ (s.setSmoothing v).smoothing ≤ 1 := by
  refine ⟨rfl, le_max_left _ _, ?_⟩
  have hv : (s.setSmoothing v).smoothing = max 0.01 (min 1.0 v) := rfl
  rw [hv]
  apply max_le
  · norm_num
  · exact le_trans (min_le_left _ _) (by norm_num)
